import Mathlib

/-!
Verification of the XMLRFC-to-org-mode converter (`xml_orgrfc/__main__.py`).

The Python program is shallowly embedded: the XML element tree becomes the
inductive type `Elt`, the global reference table `glb.sec_refs` (a Python
dict from anchor strings to usage counts) becomes an insertion-ordered
association list `SecRefs`, and each conversion function becomes a pure
Lean function.  Python runtime errors (KeyError, AttributeError on `None`,
failed `assert`) are modelled by an `Option` result: `none` means the
conversion aborts with an exception, `some fragments` means it completes
and appends exactly `fragments` to the output sequence.

The text reflow engine (`_fill`, a thin wrapper over Python's standard
library `textwrap.fill`) is external library functionality, not code of
this repository; the conversion functions take it as an explicit parameter
`fill : FillFn` (text, width, subsequent-indent), and every theorem below
holds for an arbitrary reflow function.
-/

namespace XmlOrgRfc

/-- Python's `str` whitespace characters, as used by `str.strip()`. -/
def isPyWs (c : Char) : Bool :=
  c = ' ' || c = '\t' || c = '\n' || c = '\r' || c = '\x0b' || c = '\x0c'

/-- Python `s.strip()`: remove leading and trailing whitespace. -/
def pstrip (s : String) : String :=
  String.mk (((s.data.dropWhile isPyWs).reverse.dropWhile isPyWs).reverse)

/-- Python `s.lstrip()`: remove leading whitespace. -/
def plstrip (s : String) : String :=
  String.mk (s.data.dropWhile isPyWs)

/-- Whether the first list is a prefix of the second. -/
def isPrefixL : List Char → List Char → Bool
  | [], _ => true
  | _ :: _, [] => false
  | a :: as, b :: bs => a = b && isPrefixL as bs

/-- Substring test on character lists (Python's `sub in s`). -/
def listSub (sub : List Char) : List Char → Bool
  | [] => isPrefixL sub []
  | c :: r => isPrefixL sub (c :: r) || listSub sub r

/-- Python `sub in s` for strings. -/
def strHasSub (sub s : String) : Bool := listSub sub.data s.data

/-- Python `s.endswith(suf)`. -/
def strEndsWith (s suf : String) : Bool := isPrefixL suf.data.reverse s.data.reverse

/-- Drop an expected literal from the front of a list; `none` if it is not there. -/
def dropLit : List Char → List Char → Option (List Char)
  | [], r => some r
  | _ :: _, [] => none
  | a :: as, b :: bs => if a = b then dropLit as bs else none

/-- Space or tab, the character class `[ \t]` of `_unindent`. -/
def isBlankTab (c : Char) : Bool := c = ' ' || c = '\t'

theorem lengthDropWhileLe {α : Type} (p : α → Bool) (l : List α) :
    (l.dropWhile p).length ≤ l.length := by
  induction l with
  | nil => simp [List.dropWhile]
  | cons c r ih =>
    simp only [List.dropWhile]
    cases p c <;> simp
    omega

/- `_unindent`: `re.sub("\n[ \t]+", " ", text)` — each newline followed by a
run of spaces/tabs collapses, together with the run, to a single space.
`unindentL` scans; `unindentNl` has just consumed a newline; `unindentSkip`
consumes the rest of a blank run after emitting the replacement space. -/
mutual

def unindentL : List Char → List Char
  | [] => []
  | '\n' :: rest => unindentNl rest
  | c :: rest => c :: unindentL rest
termination_by l => (l.length, 0)

def unindentNl : List Char → List Char
  | [] => ['\n']
  | c :: rest =>
    if isBlankTab c then ' ' :: unindentSkip rest
    else '\n' :: unindentL (c :: rest)
termination_by l => (l.length, 2)

def unindentSkip : List Char → List Char
  | [] => []
  | c :: rest =>
    if isBlankTab c then unindentSkip rest
    else unindentL (c :: rest)
termination_by l => (l.length, 1)

end

/-- String version of `_unindent`. -/
def unindent (s : String) : String := String.mk (unindentL s.data)

/- `re.sub("\n\n\n+", "\n\n", s)`: every run of three or more newlines
collapses to exactly two.  `collapseSkipNl` consumes the tail of the
newline run. -/
mutual

def collapseL : List Char → List Char
  | [] => []
  | '\n' :: '\n' :: '\n' :: rest => '\n' :: '\n' :: collapseSkipNl rest
  | c :: rest => c :: collapseL rest
termination_by l => (l.length, 0)

def collapseSkipNl : List Char → List Char
  | [] => []
  | c :: rest =>
    if c = '\n' then collapseSkipNl rest
    else collapseL (c :: rest)
termination_by l => (l.length, 1)

end

/-- String version of the blank-line collapsing step of the `t` handler. -/
def collapseStr (s : String) : String := String.mk (collapseL s.data)

/-- The trailing-blank-line guarantee of the `t` handler: make the paragraph
end in exactly one blank line (two newlines) if it does not already. -/
def ensurePara (s : String) : String :=
  if strEndsWith s "\n\n" then s
  else if strEndsWith s "\n" then s ++ "\n" else s ++ "\n\n"

/-- A run of `n` dashes. -/
def dashes (n : Nat) : String := String.mk (List.replicate n '-')

/-- A run of `n` spaces. -/
def spaces (n : Nat) : String := String.mk (List.replicate n ' ')

/-- A run of `n` heading stars (`"*" * n`). -/
def stars (n : Nat) : String := String.mk (List.replicate n '*')

/-- An XML element as produced by `xml.etree.ElementTree`: tag, attribute
mapping, optional leading text, optional tail text, and the ordered list of
child elements. -/
inductive Elt : Type where
  | mk : String → List (String × String) → Option String → Option String → List Elt → Elt

/-- The element's tag. -/
def Elt.tag : Elt → String
  | .mk t _ _ _ _ => t

/-- The element's attribute mapping. -/
def Elt.attrib : Elt → List (String × String)
  | .mk _ a _ _ _ => a

/-- The element's leading inline text (`elt.text`), absent when the element
has no text before its first child. -/
def Elt.text : Elt → Option String
  | .mk _ _ tx _ _ => tx

/-- The element's tail text (`elt.tail`). -/
def Elt.tail : Elt → Option String
  | .mk _ _ _ tl _ => tl

/-- The element's children (`list(elt)`). -/
def Elt.children : Elt → List Elt
  | .mk _ _ _ _ cs => cs

/-- `elt.attrib.get(key)`: first (only, since dict keys are unique) binding. -/
def attrGet : List (String × String) → String → Option String
  | [], _ => none
  | (k, v) :: r, key => if k = key then some v else attrGet r key

/-- `elt.find(tag)`: the first direct child with the given tag. -/
def findChildL : List Elt → String → Option Elt
  | [], _ => none
  | c :: r, tg => if c.tag = tg then some c else findChildL r tg

/-- `elt.find(tag)` on an element. -/
def findChild (e : Elt) (tg : String) : Option Elt := findChildL e.children tg

/-- All descendants of the elements of a list, in document (pre-)order,
each element followed by its own descendants. -/
def allDescL : List Elt → List Elt
  | [] => []
  | .mk t a tx tl cs :: r => .mk t a tx tl cs :: (allDescL cs ++ allDescL r)

/-- All proper descendants of an element in document order (`root.findall(".//…")`
searches these). -/
def allDesc (e : Elt) : List Elt := allDescL e.children

/-- `root.findall(".//tag")`: all descendants with the given tag, in document order. -/
def findallTag (root : Elt) (tg : String) : List Elt :=
  (allDesc root).filter (fun e => e.tag = tg)

/-- The reference table `glb.sec_refs`: a Python dict from anchor to usage
count, modelled as an insertion-ordered association list with unique keys. -/
abbrev SecRefs := List (String × Nat)

/-- Dict lookup `m[k]` (as an `Option`; a `none` models `KeyError`). -/
def dictGet : SecRefs → String → Option Nat
  | [], _ => none
  | (k, v) :: r, key => if k = key then some v else dictGet r key

/-- Python `k in m`. -/
def dictMem (m : SecRefs) (k : String) : Bool := (dictGet m k).isSome

/-- The keys of the dict, in insertion order. -/
def dictKeys (m : SecRefs) : List String := m.map Prod.fst

/-- Dict assignment `m[k] = v`: update in place if the key exists (keeping
its position), else append a new binding. -/
def dictSet (m : SecRefs) (k : String) (v : Nat) : SecRefs :=
  if dictMem m k then m.map (fun p => if p.1 = k then (k, v) else p)
  else m ++ [(k, v)]

/-- Dict increment `m[k] += 1` for a key that is present. -/
def dictIncr (m : SecRefs) (k : String) : SecRefs :=
  m.map (fun p => if p.1 = k then (p.1, p.2 + 1) else p)

/-- The walrus-and-truthiness pattern `if anchor := elt.attrib.get("anchor", "")`:
the attribute value when present and non-empty (note: not stripped). -/
def truthyAnchor (e : Elt) : Option String :=
  match attrGet e.attrib "anchor" with
  | some s => if s = "" then none else some s
  | none => none

/-- Same pattern for `xref` targets in the collector. -/
def truthyTarget (e : Elt) : Option String :=
  match attrGet e.attrib "target" with
  | some s => if s = "" then none else some s
  | none => none

/-- First sub-pass of `gather_section_refs`: insert every section's truthy
anchor with count 0 (duplicates overwrite, last wins). -/
def gatherSecs : SecRefs → List Elt → SecRefs
  | m, [] => m
  | m, e :: r =>
    match truthyAnchor e with
    | some a => gatherSecs (dictSet m a 0) r
    | none => gatherSecs m r

/-- Second sub-pass of `gather_section_refs`: bump the count of every xref
target that is a key of the table. -/
def gatherXrefs : SecRefs → List Elt → SecRefs
  | m, [] => m
  | m, e :: r =>
    match truthyTarget e with
    | some t => gatherXrefs (if dictMem m t then dictIncr m t else m) r
    | none => gatherXrefs m r

/-- `gather_section_refs(root)` acting on the table state `m`. -/
def gatherSectionRefs (root : Elt) (m : SecRefs) : SecRefs :=
  gatherXrefs (gatherSecs m (findallTag root "section")) (findallTag root "xref")

/-- The cell width used by `_cvt_table`'s width pass:
`len(x.text.strip()) if x.text else 0`. -/
def cellTextLenPy (x : Elt) : Nat :=
  match x.text with
  | some s => if s = "" then 0 else (pstrip s).length
  | none => 0

/-- The trimmed cell widths of one row. -/
def widthsOfRow (row : Elt) : List Nat := row.children.map cellTextLenPy

/-- The width-accumulation loop of `_cvt_table`:
`maxw = [max(x, y) for x, y in zip(widths, maxw)] if maxw else widths`.
Note that `zip` truncates to the shorter list and that an empty
accumulator (`if maxw` is falsy) is replaced wholesale by the next row. -/
def foldMaxw (rows : List (List Nat)) : List Nat :=
  rows.foldl (fun acc ws => if acc = [] then ws else List.zipWith max ws acc) []

/-- The rows of one row-group: `list(table.find(tag))`, or `[]` when the
group element is absent. -/
def groupRows (t : Elt) (tg : String) : List Elt :=
  match findChild t tg with
  | some e => e.children
  | none => []

/-- `allrows = hrows + brows + frows`. -/
def allRowsOf (t : Elt) : List Elt :=
  groupRows t "thead" ++ groupRows t "tbody" ++ groupRows t "tfoot"

/-- The final column widths: the accumulated maxima plus 2 per column. -/
def tableMaxw (t : Elt) : List Nat :=
  (foldMaxw ((allRowsOf t).map widthsOfRow)).map (fun x => 2 + x)

/-- `x.attrib.get("align")`. -/
def alignAttr (x : Elt) : Option String := attrGet x.attrib "align"

/-- `x if x else y` on optional alignment strings (empty string is falsy). -/
def pickAlign (x y : Option String) : Option String :=
  match x with
  | some s => if s = "" then y else some s
  | none => y

/-- The alignment-accumulation loop of `_cvt_table`.  The accumulator starts
as `None`; a falsy accumulator (`None` or the empty list) is replaced
wholesale by the row's alignment list, otherwise the first truthy value per
column wins, with `zip` truncation.  The final `None` (no rows at all) makes
the following comprehension raise a `TypeError`. -/
def foldAligns (rows : List (List (Option String))) : Option (List (Option String)) :=
  rows.foldl
    (fun st a =>
      match st with
      | none => some a
      | some l => if l = [] then some a else some (List.zipWith pickAlign l a))
    none

/-- `x[0] if x else "l"`: the first character of a truthy alignment value. -/
def alignCharOf (x : Option String) : Char :=
  match x with
  | some s =>
    match s.data with
    | c :: _ => c
    | [] => 'l'
  | none => 'l'

/-- The resolved per-column alignment characters of a table, `none` when
the table has no rows at all (a fatal `TypeError` in the source). -/
def tableAligns (t : Elt) : Option (List Char) :=
  (foldAligns ((allRowsOf t).map (fun r => r.children.map alignAttr))).map
    (List.map alignCharOf)

/-- The dash segments of the rule, `+`-joined (the `first` flag loop). -/
def ruleBody : List Nat → Bool → String
  | [], _ => ""
  | w :: r, first => (if first then "" else "+") ++ dashes w ++ ruleBody r false

/-- The horizontal table rule. -/
def mkRule (mw : List Nat) : String := "|" ++ ruleBody mw true ++ "|\n"

/-- The format-spec alignment mode of `get_row_text`: `c`/`r`/`l` become
`^`/`>`/`<`, anything else the empty (default) mode. -/
def fmtMode (a : Char) : String :=
  if a = 'c' then "^" else if a = 'r' then ">" else if a = 'l' then "<" else ""

/-- Python's `"{:(mode)(width)s}".format(s)`: pad `s` to `width` (never
truncating) on the right, left, or both sides. -/
def pyFormat (mode : String) (width : Nat) (s : String) : String :=
  if width ≤ s.length then s
  else if mode = ">" then spaces (width - s.length) ++ s
  else if mode = "^" then
    spaces ((width - s.length) / 2) ++ s ++
      spaces (width - s.length - (width - s.length) / 2)
  else s ++ spaces (width - s.length)

/-- `get_row_text`: one rendered cell, with its leading `|` and one space of
interior margin on each side of the text. -/
def getRowText (width : Nat) (align : Char) (etext : String) : String :=
  "|" ++ pyFormat (fmtMode align) width (" " ++ etext ++ " ")

/-- The cell text used when rendering:
`elt.text.strip() if elt.text is not None else ""`. -/
def cellTextRender (x : Elt) : String :=
  match x.text with
  | some s => pstrip s
  | none => ""

/-- The cells of a row rendered by the `zip(maxw, aligns, list(row))` loop
(truncating to the shortest of the three). -/
def rowCells : List Nat → List Char → List Elt → String
  | w :: ws, a :: as, c :: cs => getRowText w a (cellTextRender c) ++ rowCells ws as cs
  | _, _, _ => ""

/-- One rendered table row line. -/
def renderRow (mw : List Nat) (al : List Char) (row : Elt) : String :=
  rowCells mw al row.children ++ "|\n"

/-- The cells of the synthetic alignment-annotation row (`"<" + align + ">"`). -/
def alignCells : List Nat → List Char → String
  | w :: ws, a :: as => getRowText w a (String.mk ['<', a, '>']) ++ alignCells ws as
  | _, _ => ""

/-- The synthetic alignment-annotation row line. -/
def alignLine (mw : List Nat) (al : List Char) : String :=
  alignCells mw al ++ "|\n"

/-- The group-emission loop of `_cvt_table`: skip empty groups; after the
rows of the first non-empty group (tracked by the `aligned` flag) emit the
alignment-annotation row; emit the rule after every non-empty group. -/
def renderGroups (mw : List Nat) (al : List Char) (rule : String) :
    List (List Elt) → Bool → List String
  | [], _ => []
  | g :: gs, aligned =>
    if g.isEmpty then renderGroups mw al rule gs aligned
    else
      g.map (renderRow mw al) ++
        (if aligned then [] else [alignLine mw al]) ++
        rule :: renderGroups mw al rule gs true

/-- The caption line from the table's `name` child (fatal when the child
exists but has no text: `name.text.strip()` on `None`). -/
def tableCaption (t : Elt) : Option (List String) :=
  match findChild t "name" with
  | some nm =>
    match nm.text with
    | some s => some ["#+caption: " ++ pstrip s ++ "\n"]
    | none => none
  | none => some []

/-- `add_elt_attr(elt, attr, name, lines)`: one `#+name: value` line when the
stripped attribute value is non-empty. -/
def addEltAttrLines (e : Elt) (attr nm : String) : List String :=
  let v := pstrip ((attrGet e.attrib attr).getD "")
  if v = "" then [] else ["#+" ++ nm ++ ": " ++ v ++ "\n"]

/-- `_cvt_table`: caption lines, anchor line, leading rule, then the groups
with the alignment row and per-group rules. -/
def cvtTable (t : Elt) : Option (List String) :=
  match tableCaption t with
  | none => none
  | some caps =>
    let caps := caps ++ addEltAttrLines t "anchor" "name"
    let mw := tableMaxw t
    let rule := mkRule mw
    match tableAligns t with
    | none => none
    | some al =>
      some (caps ++ rule ::
        renderGroups mw al rule
          [groupRows t "thead", groupRows t "tbody", groupRows t "tfoot"] false)

/-- The `:REF_TITLE:` line of `_cvt_front_ref`: absent `title` child emits
nothing; a `title` child whose text is `None` is fatal (`e.text.strip()`). -/
def refTitleL (front : Elt) : Option (List String) :=
  match findChild front "title" with
  | some e =>
    match e.text with
    | some s => some [":REF_TITLE: " ++ pstrip s ++ "\n"]
    | none => none
  | none => some []

/-- The `:REF_ORG:` line of `_cvt_front_ref`: absent `author` child emits
nothing; an `author` child without an `organization` child (or with one
whose text is `None`) is fatal (`org.text.strip()` with `org` being `None`
or `org.text` being `None`). -/
def refOrgL (front : Elt) : Option (List String) :=
  match findChild front "author" with
  | some au =>
    match findChild au "organization" with
    | some org =>
      match org.text with
      | some s => some [":REF_ORG: " ++ pstrip s ++ "\n"]
      | none => none
    | none => none
  | none => some []

/-- `_cvt_front_ref`: title line then organization line. -/
def cvtFrontRef (front : Elt) : Option (List String) := do
  let a ← refTitleL front
  let b ← refOrgL front
  pure (a ++ b)

/-- `re.match(r".*reference\.RFC\.([0-9]+)\.xml", href)` checked at one
start position: the literal, a non-empty digit run, then `.xml`. -/
def matchTailRFC (cs : List Char) : Option String :=
  match dropLit "reference.RFC.".data cs with
  | none => none
  | some r1 =>
    let ds := r1.takeWhile Char.isDigit
    if ds = [] then none
    else
      match dropLit ".xml".data (r1.dropWhile Char.isDigit) with
      | some _ => some (String.mk ds)
      | none => none

/-- `re.match(r".*reference\.I-D.([-a-z0-9]+)\.xml", href)` checked at one
start position.  The dot after `I-D` is unescaped in the source pattern, so
it matches any single character. -/
def matchTailID (cs : List Char) : Option String :=
  match dropLit "reference.I-D".data cs with
  | none => none
  | some r1 =>
    match r1 with
    | [] => none
    | _ :: r2 =>
      let p := fun c : Char => c = '-' || c.isLower || c.isDigit
      let ds := r2.takeWhile p
      if ds = [] then none
      else
        match dropLit ".xml".data (r2.dropWhile p) with
        | some _ => some (String.mk ds)
        | none => none

/-- The greedy `.*` of the two include patterns: try the latest start
position first. -/
def matchLastL (f : List Char → Option String) : List Char → Option String
  | [] => f []
  | c :: r =>
    match matchLastL f r with
    | some g => some g
    | none => f (c :: r)

/-- The front-matter property lines of a `reference` entry: empty when no
`front` child exists, else `_cvt_front_ref`'s lines (which may fail). -/
def refFrontLines (child : Elt) : Option (List String) :=
  match findChild child "front" with
  | some f => cvtFrontRef f
  | none => some []

/-- The `reference`-tag half of `_cvt_reference`: anchor is asserted,
then heading, property block, optional target line, optional front lines.
A child that is neither an include nor a `reference` emits nothing. -/
def cvtRefCore (child : Elt) : Option (List String) :=
  if child.tag = "reference" then
    match attrGet child.attrib "anchor" with
    | none => none
    | some anchor =>
      (refFrontLines child).map (fun frontLines =>
        ["** " ++ anchor ++ "\n", ":PROPERTIES:\n"] ++
        (match attrGet child.attrib "target" with
         | some tgt => [":REF_TARGET: " ++ pstrip tgt ++ "\n"]
         | none => []) ++
        frontLines ++ [":END:\n"])
  else some []

/-- `_cvt_reference`: the include shortcuts, then the `reference` entry. -/
def cvtReference (child : Elt) : Option (List String) :=
  if strHasSub "include" child.tag && (attrGet child.attrib "href").isSome then
    let href := (attrGet child.attrib "href").getD ""
    match matchLastL matchTailRFC href.data with
    | some num => some ["** RFC" ++ num ++ "\n"]
    | none =>
      match matchLastL matchTailID href.data with
      | some nm => some ["** I-D." ++ nm ++ "\n"]
      | none => cvtRefCore child
  else cvtRefCore child

/-- The loop of the `references` branch: every child other than `name` is
routed to `_cvt_reference`. -/
def cvtRefList : List Elt → Option (List String)
  | [] => pure []
  | c :: r =>
    if c.tag = "name" then cvtRefList r
    else do
      let a ← cvtReference c
      let b ← cvtRefList r
      pure (a ++ b)

/-- The type of the external reflow engine `_fill(text, width,
subsequent_indent=" " * indent)`: text, width, subsequent-indent size. -/
abbrev FillFn := String → Nat → Nat → String

/-- The resolved section title: the stripped `title` attribute if non-empty,
else the stripped text of the `name` child (fatal when that child exists
with `None` text), else the empty string. -/
def secTitle (e : Elt) : Option String :=
  let ta := match attrGet e.attrib "title" with
            | some s => pstrip s
            | none => ""
  if ta = "" then
    match findChild e "name" with
    | some nm =>
      match nm.text with
      | some s => some (pstrip s)
      | none => none
    | none => some ""
  else some ta

/-- The section anchor used at emission time:
`elt.attrib.get("anchor", "").strip()`. -/
def secAnchor (e : Elt) : String := pstrip ((attrGet e.attrib "anchor").getD "")

/-- The three lines of a section's property block. -/
def propLines (anchor : String) : List String :=
  [":PROPERTIES:\n", ":CUSTOM_ID: " ++ anchor ++ "\n", ":END:\n"]

/-- Append a string to the last fragment of a list (`tlines[-1] += text`;
the list is never empty at the call sites, mirroring the source). -/
def appendLast (s : String) : List String → List String
  | [] => []
  | [x] => [x ++ s]
  | x :: r => x :: appendLast s r

/-- The heading/property-block part of the `section` branch: nothing when
the resolved title is empty; otherwise the heading fragment, followed by the
property block when the stripped anchor is non-empty and its count is
positive; a non-empty anchor missing from the table is a fatal `KeyError`. -/
def secHead (sr : SecRefs) (e : Elt) (level : Nat) (title : String) :
    Option (List String) :=
  if title = "" then some []
  else
    let anchor := secAnchor e
    let hd := "\n" ++ stars (level + 1) ++ " " ++ title ++ "\n"
    if anchor = "" then some [hd]
    else
      (dictGet sr anchor).map
        (fun c => hd :: (if 0 < c then propLines anchor else []))

/-- The optional heading of the `references` branch (fatal when the `name`
child exists with `None` text). -/
def refsHead (children : List Elt) (level : Nat) : Option (List String) :=
  match findChildL children "name" with
  | some nm => (nm.text).map (fun s => ["\n" ++ stars (level + 1) ++ " " ++ pstrip s ++ "\n\n"])
  | none => some []

/-- The stripped caption of a `figure` (fatal when the `name` child exists
with `None` text). -/
def figCaption (children : List Elt) : Option String :=
  match findChildL children "name" with
  | some e => (e.text).map pstrip
  | none => some ""

/-- The artwork text of a `figure`: fatal when no `artwork` child exists
(`elt.find("artwork").text` on `None`); artwork text that is itself `None`
is interpolated by the f-string as the string `None`. -/
def figArt (children : List Elt) : Option String :=
  match findChildL children "artwork" with
  | some aw => some (match aw.text with | some s => s | none => "None")
  | none => none

/-- The tail handling of `_cvt_mid_back_text_elt`: a truthy child tail is
de-indented and appended to the last accumulated fragment. -/
def tailAppend (tl2 : List String) (tail : Option String) : List String :=
  match tail with
  | some t => if t = "" then tl2 else appendLast (unindent t) tl2
  | none => tl2

/-- The `dl` branch's attribute directive suffix. -/
def dlAttrs (attrib : List (String × String)) : String :=
  (if attrGet attrib "hanging" = some "true" ∨ attrGet attrib "hanging" = some "yes"
   then " :hanging t" else "") ++
  (if attrGet attrib "spacing" = some "compact" then " :compact t" else "")

/-- The `ol`/`ul` branch's attribute directive suffix. -/
def olAttrs (attrib : List (String × String)) : String :=
  if attrGet attrib "spacing" = some "compact" then " :compact t" else ""

/- `_cvt_mid_back` and its loops, in store-passing-free form: each function
returns the fragments it appends (the Python functions append to a shared
`lines` list), or `none` when the source would raise; a `match o with |
some x => f x | none => none` of the straight-line translation is written
`o.bind f`.  `cvtChildren` is the per-child recursion loop (with the
`section` branch's skip of `title` children), `cvtTextElt`/`cvtTextChildren`
are `_cvt_mid_back_text_elt`, `cvtDl` is the term/definition pair loop,
`cvtLis` the `findall("li")` loop. -/
mutual

def cvtMidBack (sr : SecRefs) (fill : FillFn) :
    Elt → Bool → Nat → Option (List String)
  | .mk tag attrib text tail children, mid, level =>
    if tag = "section" then
      (secTitle (.mk tag attrib text tail children)).bind (fun title =>
        (secHead sr (.mk tag attrib text tail children) level title).bind (fun head =>
          (cvtChildren sr fill children true mid (level + 1)).map (fun rest =>
            head ++ "\n" :: rest)))
    else if tag = "references" then
      if mid then none
      else
        (refsHead children level).bind (fun head =>
          (cvtRefList children).map (fun rest => head ++ rest))
    else if tag = "t" then
      text.bind (fun tx =>
        (cvtTextElt sr fill children (plstrip (unindent tx)) 0 mid level).map
          (fun p1 => [ensurePara (collapseStr p1)]))
    else if tag = "xref" then
      (attrGet attrib "target").bind (fun target =>
        if target = "" then none
        else
          (cvtChildren sr fill children false mid level).map (fun rest =>
            (if dictMem sr target then "[[#" ++ target ++ "]]"
             else "[[" ++ target ++ "]]") :: rest))
    else if tag = "table" then
      cvtTable (.mk tag attrib text tail children)
    else if tag = "dl" then
      (cvtDl sr fill children mid level).map (fun pairs =>
        ["\n"] ++
          (if dlAttrs attrib = "" then [] else ["#+ATTR_RFC:" ++ dlAttrs attrib ++ "\n"]) ++
          pairs ++ ["\n"])
    else if tag = "ol" ∨ tag = "ul" then
      (cvtLis sr fill children mid level).map (fun items =>
        ["\n"] ++
          (if olAttrs attrib = "" then [] else ["#+ATTR_RFC:" ++ olAttrs attrib ++ "\n"]) ++
          items ++ ["\n"])
    else if tag = "figure" then
      (figCaption children).bind (fun nm =>
        (figArt children).map (fun art =>
          (if nm = "" then [] else ["#+caption: " ++ nm ++ "\n"]) ++
            addEltAttrLines (.mk tag attrib text tail children) "anchor" "name" ++
            ["#+begin_src\n" ++ art ++ "\n#+end_src\n"]))
    else
      cvtChildren sr fill children false mid (level + 1)
termination_by e _ _ => (sizeOf e, 1)

def cvtChildren (sr : SecRefs) (fill : FillFn) :
    List Elt → Bool → Bool → Nat → Option (List String)
  | [], _, _, _ => some []
  | c :: r, skipT, mid, level =>
    if skipT ∧ c.tag = "title" then cvtChildren sr fill r skipT mid level
    else
      (cvtMidBack sr fill c mid level).bind (fun a =>
        (cvtChildren sr fill r skipT mid level).map (fun b => a ++ b))
termination_by es _ _ _ => (sizeOf es, 0)

def cvtTextElt (sr : SecRefs) (fill : FillFn) :
    List Elt → String → Nat → Bool → Nat → Option String
  | children, tx, indent, mid, level =>
    (cvtTextChildren sr fill children [tx] mid level).map (fun tl =>
      fill (String.join tl) 69 indent)
termination_by es _ _ _ _ => (sizeOf es, 1)

def cvtTextChildren (sr : SecRefs) (fill : FillFn) :
    List Elt → List String → Bool → Nat → Option (List String)
  | [], tl, _, _ => some tl
  | c :: r, tl, mid, level =>
    (cvtMidBack sr fill c mid level).bind (fun d =>
      cvtTextChildren sr fill r (tailAppend (tl ++ d) c.tail) mid level)
termination_by es _ _ _ => (sizeOf es, 0)

def cvtDl (sr : SecRefs) (fill : FillFn) :
    List Elt → Bool → Nat → Option (List String)
  | [], _, _ => some []
  | [dt], _, _ => (dt.text).bind (fun _ => some [])
  | dt :: .mk _t2 _a2 tx2 _tl2 cs2 :: rest2, mid, level =>
    (dt.text).bind (fun ttext =>
      tx2.bind (fun dtext =>
        (cvtTextElt sr fill cs2 (plstrip (unindent dtext)) 2 mid level).bind (fun itext =>
          (cvtDl sr fill rest2 mid level).map (fun more =>
            ("- " ++ pstrip ttext ++ " :: " ++ itext ++ "\n") :: more))))
termination_by es _ _ => (sizeOf es, 0)

def cvtLis (sr : SecRefs) (fill : FillFn) :
    List Elt → Bool → Nat → Option (List String)
  | [], _, _ => some []
  | .mk t2 _a2 tx2 _tl2 cs2 :: r, mid, level =>
    if t2 = "li" then
      tx2.bind (fun t =>
        (cvtTextElt sr fill cs2 (plstrip (unindent t)) 2 mid level).bind (fun itext =>
          (cvtLis sr fill r mid level).map (fun more => ("- " ++ itext ++ "\n") :: more)))
    else cvtLis sr fill r mid level
termination_by es _ _ => (sizeOf es, 0)

end

/-! ### Lemmas about the reference table and the Reference Collector -/

/-- The truthy anchors contributed by a list of section elements, in order. -/
def anchorsOf (l : List Elt) : List String := l.filterMap truthyAnchor

/-- Set every entry whose key occurs in `as` to zero, keeping positions. -/
def resetMap (as : List String) (m : SecRefs) : SecRefs :=
  m.map (fun p => if p.1 ∈ as then (p.1, 0) else p)

/-- The bindings appended by `gatherSecs` for anchors not already present,
in first-occurrence order; `ks` is the set of keys already present. -/
def freshOf (ks : List String) : List Elt → SecRefs
  | [] => []
  | e :: r =>
    match truthyAnchor e with
    | some a => if a ∈ ks then freshOf ks r else (a, 0) :: freshOf (ks ++ [a]) r
    | none => freshOf ks r

theorem dictGet_isSome_iff (m : SecRefs) (k : String) :
    (dictGet m k).isSome = true ↔ k ∈ dictKeys m := by
  induction m with
  | nil => simp [dictGet, dictKeys]
  | cons p r ih =>
    obtain ⟨a, v⟩ := p
    by_cases h : a = k <;> simp [dictGet, dictKeys, h, ih]
    exact fun hk => (h hk.symm).elim

theorem dictMem_iff (m : SecRefs) (k : String) :
    dictMem m k = true ↔ k ∈ dictKeys m := by
  simp [dictMem, dictGet_isSome_iff]

theorem dictKeys_append (m1 m2 : SecRefs) :
    dictKeys (m1 ++ m2) = dictKeys m1 ++ dictKeys m2 := by
  simp [dictKeys]

theorem dictKeys_map_upd (m : SecRefs) (a : String) (v : Nat) :
    dictKeys (m.map (fun p => if p.1 = a then (a, v) else p)) = dictKeys m := by
  induction m with
  | nil => simp [dictKeys]
  | cons p r ih =>
    by_cases h : p.1 = a <;> simp [dictKeys, h] <;>
      simpa [dictKeys] using ih

theorem dictKeys_dictSet_mem (m : SecRefs) (k : String) (v : Nat)
    (h : k ∈ dictKeys m) : dictKeys (dictSet m k v) = dictKeys m := by
  rw [dictSet, if_pos ((dictMem_iff m k).mpr h)]
  exact dictKeys_map_upd m k v

theorem dictKeys_dictSet_not_mem (m : SecRefs) (k : String) (v : Nat)
    (h : ¬k ∈ dictKeys m) : dictKeys (dictSet m k v) = dictKeys m ++ [k] := by
  rw [dictSet, if_neg]
  · simp [dictKeys]
  · simp [dictMem_iff, h]

theorem dictKeys_dictIncr (m : SecRefs) (k : String) :
    dictKeys (dictIncr m k) = dictKeys m := by
  induction m with
  | nil => simp [dictIncr, dictKeys]
  | cons p r ih =>
    by_cases h : p.1 = k <;> simp [dictIncr, dictKeys, h] <;>
      simpa [dictIncr, dictKeys] using ih

theorem dictKeys_gatherXrefs (m : SecRefs) (l : List Elt) :
    dictKeys (gatherXrefs m l) = dictKeys m := by
  induction l generalizing m with
  | nil => simp [gatherXrefs]
  | cons e r ih =>
    rw [gatherXrefs]
    cases truthyTarget e with
    | none => exact ih m
    | some t =>
      by_cases h : dictMem m t = true
      · simp only [h, if_true]
        rw [ih (dictIncr m t), dictKeys_dictIncr]
      · simp only [Bool.not_eq_true] at h
        simp only [h, Bool.false_eq_true, if_false]
        exact ih m

theorem resetMap_cons_not_mem (a : String) (as : List String) (m : SecRefs)
    (h : ¬a ∈ dictKeys m) : resetMap (a :: as) m = resetMap as m := by
  unfold resetMap
  apply List.map_congr_left
  intro p hp
  have hne : p.1 ≠ a := by
    intro he
    exact h (he ▸ List.mem_map_of_mem Prod.fst hp)
  by_cases h2 : p.1 ∈ as <;> simp [h2, hne]

theorem resetMap_upd (as : List String) (m : SecRefs) (a : String) :
    resetMap as (m.map (fun p => if p.1 = a then (a, 0) else p)) =
      resetMap (a :: as) m := by
  unfold resetMap
  rw [List.map_map]
  apply List.map_congr_left
  intro p _
  by_cases h : p.1 = a
  · subst h
    by_cases h2 : p.1 ∈ as <;> simp [h2]
  · by_cases h2 : p.1 ∈ as <;> simp [h, h2]

theorem resetMap_append (as : List String) (m1 m2 : SecRefs) :
    resetMap as (m1 ++ m2) = resetMap as m1 ++ resetMap as m2 := by
  simp [resetMap]

theorem anchorsOf_cons_none (e : Elt) (r : List Elt) (ht : truthyAnchor e = none) :
    anchorsOf (e :: r) = anchorsOf r := by
  simp [anchorsOf, List.filterMap_cons, ht]

theorem anchorsOf_cons_some (e : Elt) (r : List Elt) (a : String)
    (ht : truthyAnchor e = some a) : anchorsOf (e :: r) = a :: anchorsOf r := by
  simp [anchorsOf, List.filterMap_cons, ht]

/-- Closed form of the collector's first sub-pass: existing entries are reset
to zero when their key is a truthy anchor, and new anchors are appended with
count zero in first-occurrence order. -/
theorem gatherSecs_closed (l : List Elt) :
    ∀ m : SecRefs, gatherSecs m l = resetMap (anchorsOf l) m ++ freshOf (dictKeys m) l := by
  induction l with
  | nil =>
    intro m
    simp [gatherSecs, anchorsOf, resetMap, freshOf]
  | cons e r ih =>
    intro m
    cases ht : truthyAnchor e with
    | none =>
      simp only [gatherSecs, ht, freshOf, anchorsOf_cons_none e r ht]
      exact ih m
    | some a =>
      rw [anchorsOf_cons_some e r a ht]
      by_cases hm : a ∈ dictKeys m
      · have hset : dictSet m a 0 = m.map (fun p => if p.1 = a then (a, 0) else p) := by
          rw [dictSet, if_pos ((dictMem_iff m a).mpr hm)]
        simp only [gatherSecs, ht, freshOf, if_pos hm]
        rw [ih (dictSet m a 0), hset, resetMap_upd, dictKeys_map_upd]
      · have hset : dictSet m a 0 = m ++ [(a, 0)] := by
          rw [dictSet, if_neg]
          simp [dictMem_iff, hm]
        simp only [gatherSecs, ht, freshOf, if_neg hm]
        rw [ih (dictSet m a 0), hset, resetMap_append]
        have h1 : resetMap (anchorsOf r) [(a, 0)] = [(a, 0)] := by
          by_cases h2 : a ∈ anchorsOf r <;> simp [resetMap, h2]
        have h2 : resetMap (anchorsOf r) m = resetMap (a :: anchorsOf r) m :=
          (resetMap_cons_not_mem a (anchorsOf r) m hm).symm
        have h3 : dictKeys (m ++ [(a, 0)]) = dictKeys m ++ [a] := by
          simp [dictKeys]
        rw [h1, h2, h3]
        simp

theorem freshOf_nil_of_subset (l : List Elt) :
    ∀ ks : List String, (∀ a ∈ anchorsOf l, a ∈ ks) → freshOf ks l = [] := by
  induction l with
  | nil => intro ks _; rfl
  | cons e r ih =>
    intro ks hsub
    cases ht : truthyAnchor e with
    | none =>
      simp only [freshOf, ht]
      refine ih ks fun a ha => hsub a ?_
      rw [anchorsOf_cons_none e r ht]
      exact ha
    | some a =>
      have hmem : a ∈ ks := by
        refine hsub a ?_
        rw [anchorsOf_cons_some e r a ht]
        exact List.mem_cons_self a _
      simp only [freshOf, ht, if_pos hmem]
      refine ih ks fun b hb => hsub b ?_
      rw [anchorsOf_cons_some e r a ht]
      exact List.mem_cons_of_mem a hb

theorem dictKeys_dictSet_super (m : SecRefs) (k b : String) (v : Nat)
    (h : k ∈ dictKeys m) : k ∈ dictKeys (dictSet m b v) := by
  by_cases hb : b ∈ dictKeys m
  · rw [dictKeys_dictSet_mem m b v hb]; exact h
  · rw [dictKeys_dictSet_not_mem m b v hb]; exact List.mem_append_left _ h

theorem gatherSecs_keys_mono (l : List Elt) :
    ∀ m : SecRefs, ∀ k ∈ dictKeys m, k ∈ dictKeys (gatherSecs m l) := by
  induction l with
  | nil => intro m k h; simpa [gatherSecs] using h
  | cons e r ih =>
    intro m k h
    cases ht : truthyAnchor e with
    | none =>
      simp only [gatherSecs, ht]
      exact ih m k h
    | some a =>
      simp only [gatherSecs, ht]
      exact ih (dictSet m a 0) k (dictKeys_dictSet_super m k a 0 h)

/-- Every truthy section anchor ends up as a key of the table. -/
theorem anchors_mem_gatherSecs (l : List Elt) :
    ∀ m : SecRefs, ∀ a ∈ anchorsOf l, a ∈ dictKeys (gatherSecs m l) := by
  induction l with
  | nil => intro m a h; simp [anchorsOf] at h
  | cons e r ih =>
    intro m a h
    cases ht : truthyAnchor e with
    | none =>
      rw [anchorsOf_cons_none e r ht] at h
      simp only [gatherSecs, ht]
      exact ih m a h
    | some b =>
      rw [anchorsOf_cons_some e r b ht] at h
      simp only [gatherSecs, ht]
      rcases List.mem_cons.mp h with he | hr
      · subst he
        apply gatherSecs_keys_mono
        by_cases hb : a ∈ dictKeys m
        · rw [dictKeys_dictSet_mem m a 0 hb]; exact hb
        · rw [dictKeys_dictSet_not_mem m a 0 hb]; simp
      · exact ih (dictSet m b 0) a hr

/-- Conversely, starting from the empty table every key is a truthy anchor. -/
theorem gatherSecs_keys_sub (l : List Elt) :
    ∀ m : SecRefs, ∀ k ∈ dictKeys (gatherSecs m l), k ∈ dictKeys m ∨ k ∈ anchorsOf l := by
  induction l with
  | nil => intro m k h; left; simpa [gatherSecs] using h
  | cons e r ih =>
    intro m k h
    cases ht : truthyAnchor e with
    | none =>
      simp only [gatherSecs, ht] at h
      rcases ih m k h with h1 | h1
      · exact Or.inl h1
      · right
        rw [anchorsOf_cons_none e r ht]
        exact h1
    | some a =>
      simp only [gatherSecs, ht] at h
      rw [anchorsOf_cons_some e r a ht]
      rcases ih (dictSet m a 0) k h with h1 | h1
      · by_cases hb : a ∈ dictKeys m
        · rw [dictKeys_dictSet_mem m a 0 hb] at h1; exact Or.inl h1
        · rw [dictKeys_dictSet_not_mem m a 0 hb] at h1
          rcases List.mem_append.mp h1 with h2 | h2
          · exact Or.inl h2
          · right
            simp at h2
            simp [h2]
      · right
        exact List.mem_cons_of_mem a h1

theorem gatherSecs_values_zero (l : List Elt) :
    ∀ m : SecRefs, (∀ p ∈ m, p.2 = 0) → ∀ p ∈ gatherSecs m l, p.2 = 0 := by
  induction l with
  | nil => intro m hm p hp; exact hm p (by simpa [gatherSecs] using hp)
  | cons e r ih =>
    intro m hm p hp
    cases ht : truthyAnchor e with
    | none =>
      simp only [gatherSecs, ht] at hp
      exact ih m hm p hp
    | some a =>
      simp only [gatherSecs, ht] at hp
      refine ih (dictSet m a 0) ?_ p hp
      intro q hq
      unfold dictSet at hq
      by_cases hb : dictMem m a = true
      · rw [if_pos hb] at hq
        obtain ⟨q0, hq0, hq0e⟩ := List.mem_map.mp hq
        by_cases h1 : q0.1 = a
        · rw [if_pos h1] at hq0e
          rw [← hq0e]
        · rw [if_neg h1] at hq0e
          rw [← hq0e]
          exact hm q0 hq0
      · rw [if_neg hb] at hq
        rcases List.mem_append.mp hq with h1 | h1
        · exact hm q h1
        · simp at h1
          rw [h1]

theorem resetMap_all (as : List String) (m : SecRefs)
    (h : ∀ k ∈ dictKeys m, k ∈ as) :
    resetMap as m = m.map (fun p => ((p.1 : String), (0 : Nat))) := by
  unfold resetMap
  apply List.map_congr_left
  intro p hp
  rw [if_pos (h p.1 (List.mem_map_of_mem Prod.fst hp))]

theorem zeroMap_eq_keys (m : SecRefs) :
    m.map (fun p => ((p.1 : String), (0 : Nat))) =
      (dictKeys m).map (fun k => (k, 0)) := by
  simp only [dictKeys, List.map_map]
  rfl

/-- C8 helper: the second pass of an immediate re-run restores the table the
first pass produced. -/
theorem gatherSecs_rerun (secs xr : List Elt) :
    gatherSecs (gatherXrefs (gatherSecs [] secs) xr) secs = gatherSecs [] secs := by
  set M0 := gatherSecs [] secs with hM0
  set M1 := gatherXrefs M0 xr with hM1
  have hkeys : dictKeys M1 = dictKeys M0 := dictKeys_gatherXrefs M0 xr
  have hanch : ∀ a ∈ anchorsOf secs, a ∈ dictKeys M1 := by
    intro a ha
    rw [hkeys, hM0]
    exact anchors_mem_gatherSecs secs [] a ha
  have hsub : ∀ k ∈ dictKeys M1, k ∈ anchorsOf secs := by
    intro k hk
    rw [hkeys, hM0] at hk
    rcases gatherSecs_keys_sub secs [] k hk with h | h
    · simp [dictKeys] at h
    · exact h
  rw [gatherSecs_closed secs M1]
  rw [freshOf_nil_of_subset secs (dictKeys M1) hanch]
  rw [resetMap_all (anchorsOf secs) M1 hsub, List.append_nil]
  rw [zeroMap_eq_keys M1, hkeys, ← zeroMap_eq_keys M0]
  have hzero : ∀ p ∈ M0, p.2 = 0 := by
    rw [hM0]
    exact gatherSecs_values_zero secs [] (by intro p hp; simp at hp)
  conv_rhs => rw [← List.map_id M0]
  apply List.map_congr_left
  intro p hp
  have h0 := hzero p hp
  obtain ⟨k, v⟩ := p
  simp only at h0
  simp [h0]

/-- C8: for every document tree, running the Reference Collector twice in
succession on the same tree yields exactly the same anchor-to-count mapping
as running it once: the second run resets every anchor key to zero and
re-counts the same cross-references, restoring the same table. -/
theorem c8_collector_idempotent (root : Elt) :
    gatherSectionRefs root (gatherSectionRefs root []) = gatherSectionRefs root [] := by
  unfold gatherSectionRefs
  rw [gatherSecs_rerun]

/-- A reflow function used to instantiate witnesses (the theorems hold for
every `FillFn`). -/
def trivFill : FillFn := fun s _ _ => s

/-- A section whose anchor attribute carries trailing whitespace. -/
def exSec9 : Elt := .mk "section" [("anchor", "x "), ("title", "T")] none none []

/-- A document containing only `exSec9`. -/
def exRoot9 : Elt := .mk "rfc" [] none none [exSec9]

/-- C9 counterexample: in the normal two-pass pipeline the collector stores
the section's raw anchor `"x "` as the table key, but heading emission looks
up the stripped anchor `"x"`, so the unguarded lookup's missing-key error
branch is reached and the conversion aborts — refuting the claim that the
lookup never fails. -/
theorem c9_counterexample :
    gatherSectionRefs exRoot9 [] = [("x ", 0)] ∧
      cvtMidBack (gatherSectionRefs exRoot9 []) trivFill exSec9 true 0 = none := by
  have h1 : gatherSectionRefs exRoot9 [] = [("x ", 0)] := by
    simp +decide [gatherSectionRefs, findallTag, allDesc, allDescL, exRoot9, exSec9,
      gatherSecs, gatherXrefs, truthyAnchor, truthyTarget, attrGet, Elt.attrib,
      Elt.tag, Elt.children, dictSet, dictMem, dictGet]
  refine ⟨h1, ?_⟩
  rw [h1]
  simp +decide [cvtMidBack, exSec9, secTitle, secAnchor, attrGet, Elt.attrib,
    findChild, findChildL, Elt.children, pstrip, isPyWs, dictGet]

/-- C9 (amended): after the collector has run, every section's non-empty
anchor is a table key under its raw spelling; since heading emission looks
up the stripped anchor instead, the lookup is guaranteed to succeed for
anchors without surrounding whitespace (where raw and stripped coincide),
and only for those — the missing-key branch is reachable otherwise. -/
theorem c9_amended_lookup_safe (root e : Elt) (a : String)
    (hmem : e ∈ allDesc root) (htag : e.tag = "section")
    (hanch : attrGet e.attrib "anchor" = some a) (hne : a ≠ "")
    (hstrip : pstrip a = a) :
    a ∈ dictKeys (gatherSectionRefs root []) ∧
      (dictGet (gatherSectionRefs root []) (secAnchor e)).isSome = true := by
  have h1 : e ∈ findallTag root "section" := by
    rw [findallTag, List.mem_filter]
    exact ⟨hmem, by simp [htag]⟩
  have h2 : truthyAnchor e = some a := by
    simp [truthyAnchor, hanch, hne]
  have h3 : a ∈ anchorsOf (findallTag root "section") :=
    List.mem_filterMap.mpr ⟨e, h1, h2⟩
  have h4 : a ∈ dictKeys (gatherSecs [] (findallTag root "section")) :=
    anchors_mem_gatherSecs _ [] a h3
  have h5 : a ∈ dictKeys (gatherSectionRefs root []) := by
    unfold gatherSectionRefs
    rw [dictKeys_gatherXrefs]
    exact h4
  refine ⟨h5, ?_⟩
  have h6 : secAnchor e = a := by
    simp [secAnchor, hanch, hstrip]
  rw [h6]
  exact (dictGet_isSome_iff _ a).mpr h5

/-- A well-behaved section for the C9 witness. -/
def exSecW : Elt := .mk "section" [("anchor", "ok"), ("title", "T")] none none []

/-- A document containing only `exSecW`. -/
def exRootW : Elt := .mk "rfc" [] none none [exSecW]

theorem c9_amended_lookup_safe_witness :
    exSecW ∈ allDesc exRootW ∧
      "ok" ∈ dictKeys (gatherSectionRefs exRootW []) ∧
      (dictGet (gatherSectionRefs exRootW []) (secAnchor exSecW)).isSome = true := by
  have hmem : exSecW ∈ allDesc exRootW := by
    simp [allDesc, allDescL, exRootW, exSecW, Elt.children]
  have h := c9_amended_lookup_safe exRootW exSecW "ok" hmem (by rfl)
    (by rfl) (by decide) (by decide)
  exact ⟨hmem, h.1, h.2⟩

/-- C10: a `t` paragraph element whose leading text is absent (it begins
directly with a child element) makes the conversion fail fatally at the
de-indent step (`_unindent(None)` raises), for every reference table, reflow
function, attribute list, tail, child list, mode and level; hence a `t`
element must have present leading text for conversion to succeed. -/
theorem c10_t_requires_text (sr : SecRefs) (fill : FillFn)
    (attrib : List (String × String)) (tail : Option String)
    (children : List Elt) (mid : Bool) (level : Nat) :
    cvtMidBack sr fill (.mk "t" attrib none tail children) mid level = none := by
  simp [cvtMidBack]

/-- Unfolding of the dispatcher at a `section` element. -/
theorem cvtMidBack_section_eq (sr : SecRefs) (fill : FillFn)
    (attrib : List (String × String)) (text tail : Option String)
    (children : List Elt) (mid : Bool) (level : Nat) :
    cvtMidBack sr fill (.mk "section" attrib text tail children) mid level =
      (secTitle (.mk "section" attrib text tail children)).bind (fun title =>
        (secHead sr (.mk "section" attrib text tail children) level title).bind (fun head =>
          (cvtChildren sr fill children true mid (level + 1)).map (fun rest =>
            head ++ "\n" :: rest))) := by
  simp +decide [cvtMidBack]

/-- Unfolding of the dispatcher at an `xref` element. -/
theorem cvtMidBack_xref_eq (sr : SecRefs) (fill : FillFn)
    (attrib : List (String × String)) (text tail : Option String)
    (children : List Elt) (mid : Bool) (level : Nat) :
    cvtMidBack sr fill (.mk "xref" attrib text tail children) mid level =
      (attrGet attrib "target").bind (fun target =>
        if target = "" then none
        else
          (cvtChildren sr fill children false mid level).map (fun rest =>
            (if dictMem sr target then "[[#" ++ target ++ "]]"
             else "[[" ++ target ++ "]]") :: rest)) := by
  simp +decide [cvtMidBack]

/-- The heading-identifier condition of the `section` branch:
`anchor and glb.sec_refs[anchor] > 0`. -/
def anchorLinked (sr : SecRefs) (anchor : String) : Bool :=
  if anchor = "" then false
  else
    match dictGet sr anchor with
    | some c => decide (0 < c)
    | none => false

/-- C1: for a `section` element whose resolved title is non-empty, a
successful conversion emits the heading fragment first; it is immediately
followed by the property block with the anchor as custom identifier exactly
when the (stripped) anchor is non-empty and its reference count is positive,
and by no property block otherwise; the section's own trailing blank line
and the children's fragments follow. -/
theorem c1_section_property_block (sr : SecRefs) (fill : FillFn)
    (attrib : List (String × String)) (text tail : Option String)
    (children : List Elt) (mid : Bool) (level : Nat) (title : String)
    (out : List String)
    (htitle : secTitle (.mk "section" attrib text tail children) = some title)
    (hne : title ≠ "")
    (hout : cvtMidBack sr fill (.mk "section" attrib text tail children) mid level
      = some out) :
    ∃ rest,
      out = ("\n" ++ stars (level + 1) ++ " " ++ title ++ "\n") ::
        ((if anchorLinked sr (secAnchor (.mk "section" attrib text tail children))
          then propLines (secAnchor (.mk "section" attrib text tail children))
          else []) ++ "\n" :: rest) := by
  rw [cvtMidBack_section_eq] at hout
  rw [htitle] at hout
  simp only [Option.some_bind, secHead, hne, if_false] at hout
  set a := secAnchor (Elt.mk "section" attrib text tail children) with ha
  by_cases hae : a = ""
  · simp only [hae, if_true, Option.some_bind] at hout
    rw [Option.map_eq_some'] at hout
    obtain ⟨rest, hc, he⟩ := hout
    refine ⟨rest, ?_⟩
    rw [← he]
    have hl : anchorLinked sr a = false := by
      simp [anchorLinked, hae]
    simp [hl]
  · simp only [hae, if_false, reduceIte] at hout
    cases hd : dictGet sr a with
    | none =>
      rw [hd] at hout
      simp at hout
    | some c =>
      rw [hd] at hout
      simp only [Option.map_some', Option.some_bind] at hout
      rw [Option.map_eq_some'] at hout
      obtain ⟨rest, hc, he⟩ := hout
      refine ⟨rest, ?_⟩
      rw [← he]
      by_cases hcp : 0 < c
      · have hl : anchorLinked sr a = true := by
          simp [anchorLinked, hae, hd, hcp]
        simp [hl, hcp]
      · have hl : anchorLinked sr a = false := by
          simp [anchorLinked, hae, hd, hcp]
        simp [hl, hcp]

/-- A table for witnesses: anchor `s1` referenced once. -/
def exSr1 : SecRefs := [("s1", 1)]

/-- A section carrying the referenced anchor `s1`. -/
def exSec1 : Elt := .mk "section" [("anchor", "s1"), ("title", "Intro")] none none []

theorem c1_section_property_block_witness :
    secTitle exSec1 = some "Intro" ∧
      cvtMidBack exSr1 trivFill exSec1 true 0 =
        some ["\n* Intro\n", ":PROPERTIES:\n", ":CUSTOM_ID: s1\n", ":END:\n", "\n"] ∧
      (∃ rest,
        ["\n* Intro\n", ":PROPERTIES:\n", ":CUSTOM_ID: s1\n", ":END:\n", "\n"] =
          ("\n" ++ stars (0 + 1) ++ " " ++ "Intro" ++ "\n") ::
            ((if anchorLinked exSr1 (secAnchor exSec1)
              then propLines (secAnchor exSec1)
              else []) ++ "\n" :: rest)) := by
  have h1 : secTitle exSec1 = some "Intro" := by
    simp +decide [secTitle, exSec1, Elt.attrib, Elt.children, attrGet, pstrip, isPyWs,
      findChild, findChildL]
  have h2 : cvtMidBack exSr1 trivFill exSec1 true 0 =
      some ["\n* Intro\n", ":PROPERTIES:\n", ":CUSTOM_ID: s1\n", ":END:\n", "\n"] := by
    simp +decide [cvtMidBack, exSec1, exSr1, secTitle, secAnchor, Elt.attrib,
      Elt.children, attrGet, pstrip, isPyWs, findChild, findChildL, dictGet,
      cvtChildren, stars, propLines, List.replicate]
  exact ⟨h1, h2, c1_section_property_block exSr1 trivFill _ none none [] true 0
    "Intro" _ h1 (by decide) h2⟩

/-- C2: for an `xref` element with a present, non-empty target, a successful
conversion emits first an internal link `[[#target]]` when the target is a
key of the reference table (regardless of its count, zero included), and an
external link `[[target]]` otherwise; any child fragments follow. -/
theorem c2_xref_link (sr : SecRefs) (fill : FillFn)
    (attrib : List (String × String)) (text tail : Option String)
    (children : List Elt) (mid : Bool) (level : Nat) (target : String)
    (out : List String)
    (htgt : attrGet attrib "target" = some target)
    (hne : target ≠ "")
    (hout : cvtMidBack sr fill (.mk "xref" attrib text tail children) mid level
      = some out) :
    ∃ rest,
      out = (if dictMem sr target then "[[#" ++ target ++ "]]"
             else "[[" ++ target ++ "]]") :: rest := by
  rw [cvtMidBack_xref_eq, htgt] at hout
  simp only [Option.some_bind, hne, if_false, reduceIte] at hout
  rw [Option.map_eq_some'] at hout
  obtain ⟨rest, hc, he⟩ := hout
  exact ⟨rest, he.symm⟩

/-- An xref whose target is the known anchor `s1`. -/
def exXref : Elt := .mk "xref" [("target", "s1")] none none []

theorem c2_xref_link_witness :
    attrGet exXref.attrib "target" = some "s1" ∧
      cvtMidBack exSr1 trivFill exXref true 0 = some ["[[#s1]]"] ∧
      (∃ rest, ["[[#s1]]"] =
        (if dictMem exSr1 "s1" then "[[#" ++ "s1" ++ "]]"
         else "[[" ++ "s1" ++ "]]") :: rest) := by
  have h1 : attrGet exXref.attrib "target" = some "s1" := by
    simp +decide [exXref, Elt.attrib, attrGet]
  have h2 : cvtMidBack exSr1 trivFill exXref true 0 = some ["[[#s1]]"] := by
    simp +decide [cvtMidBack, exXref, exSr1, Elt.attrib, Elt.children, attrGet,
      dictMem, dictGet, cvtChildren]
  exact ⟨h1, h2, c2_xref_link exSr1 trivFill _ none none [] true 0 "s1" _ h1
    (by decide) h2⟩

/-! ### Lemmas for the Table Layout Renderer -/

/-- A default element for positional (`getD`) reasoning about cell lists. -/
def nullElt : Elt := .mk "" [] none none []

/-- The per-column maximum of the trimmed cell widths over a list of rows
(missing positions contribute 0). -/
def colMax (rows : List (List Nat)) (j : Nat) : Nat :=
  rows.foldl (fun a ws => max a (ws.getD j 0)) 0

theorem strLength_mk (l : List Char) : (String.mk l).length = l.length := rfl

theorem dashes_length (n : Nat) : (dashes n).length = n := by
  simp [dashes, strLength_mk]

theorem spaces_length (n : Nat) : (spaces n).length = n := by
  simp [spaces, strLength_mk]

theorem ruleBody_false_length (ws : List Nat) :
    (ruleBody ws false).length = ws.sum + ws.length := by
  induction ws with
  | nil => rfl
  | cons w r ih =>
    have h0 : ruleBody (w :: r) false = ("+" ++ dashes w) ++ ruleBody r false := rfl
    have h1 : ("+" : String).length = 1 := rfl
    rw [h0, String.length_append, String.length_append, dashes_length, ih, h1,
      List.sum_cons, List.length_cons]
    omega

theorem mkRule_length (w : Nat) (ws : List Nat) :
    (mkRule (w :: ws)).length = (w :: ws).sum + (w :: ws).length + 2 := by
  have h0 : ruleBody (w :: ws) true = ("" ++ dashes w) ++ ruleBody ws false := rfl
  have h1 : ("|" : String).length = 1 := rfl
  have h2 : ("|\n" : String).length = 2 := rfl
  have h3 : ("" : String).length = 0 := rfl
  rw [mkRule, h0, String.length_append, String.length_append, String.length_append,
    String.length_append, dashes_length, ruleBody_false_length, h1, h2, h3,
    List.sum_cons, List.length_cons]
  omega

theorem pyFormat_length (mode : String) (w : Nat) (s : String) :
    (pyFormat mode w s).length = max w s.length := by
  unfold pyFormat
  by_cases h1 : w ≤ s.length
  · rw [if_pos h1]
    omega
  · rw [if_neg h1]
    by_cases h2 : mode = ">"
    · rw [if_pos h2]
      simp only [String.length_append, spaces_length]
      omega
    · rw [if_neg h2]
      by_cases h3 : mode = "^"
      · rw [if_pos h3]
        simp only [String.length_append, spaces_length]
        omega
      · rw [if_neg h3]
        simp only [String.length_append, spaces_length]
        omega

theorem getRowText_length (w : Nat) (a : Char) (etext : String) :
    (getRowText w a etext).length = 1 + max w (etext.length + 2) := by
  have h1 : ("|" : String).length = 1 := rfl
  have h2 : (" " : String).length = 1 := rfl
  simp only [getRowText, String.length_append, pyFormat_length, h1, h2]
  omega

theorem cellTextRender_length (c : Elt) :
    (cellTextRender c).length = cellTextLenPy c := by
  obtain ⟨t, a, tx, tl, cs⟩ := c
  cases tx with
  | none => rfl
  | some s =>
    by_cases h : s = ""
    · subst h
      rfl
    · simp [cellTextRender, cellTextLenPy, Elt.text, h]

theorem getD_map_general {α β : Type} (f : α → β) :
    ∀ (l : List α) (j : Nat) (d : α), (l.map f).getD j (f d) = f (l.getD j d) := by
  intro l
  induction l with
  | nil => intro j d; simp [List.getD]
  | cons x r ih =>
    intro j d
    cases j with
    | zero => simp
    | succ jj => exact ih jj d

theorem rowCells_length : ∀ (ws : List Nat) (al : List Char) (cells : List Elt),
    ws.length ≤ al.length → ws.length ≤ cells.length →
    (∀ j, j < ws.length →
      (cellTextRender (cells.getD j nullElt)).length + 2 ≤ ws.getD j 0) →
    (rowCells ws al cells).length = ws.sum + ws.length := by
  intro ws
  induction ws with
  | nil =>
    intro al cells _ _ _
    cases al <;> cases cells <;> simp [rowCells]
  | cons w wr ih =>
    intro al cells h1 h2 h3
    cases al with
    | nil => simp at h1
    | cons a ar =>
      cases cells with
      | nil => simp at h2
      | cons c cr =>
        have hb : (cellTextRender c).length + 2 ≤ w := by
          have := h3 0 (by simp)
          simpa using this
        have hr := ih ar cr (by simpa using h1) (by simpa using h2)
          (fun j hj => by
            have := h3 (j + 1) (by simpa using Nat.succ_lt_succ hj)
            simpa using this)
        simp only [rowCells, String.length_append, getRowText_length, hr,
          List.sum_cons, List.length_cons]
        have : max w ((cellTextRender c).length + 2) = w := by omega
        rw [this]
        omega

theorem renderRow_length (mw : List Nat) (al : List Char) (row : Elt)
    (h1 : mw.length ≤ al.length) (h2 : mw.length ≤ row.children.length)
    (h3 : ∀ j, j < mw.length →
      (cellTextRender (row.children.getD j nullElt)).length + 2 ≤ mw.getD j 0) :
    (renderRow mw al row).length = mw.sum + mw.length + 2 := by
  have h4 : ("|\n" : String).length = 2 := rfl
  simp only [renderRow, String.length_append, rowCells_length mw al row.children h1 h2 h3, h4]

theorem alignCells_length : ∀ (ws : List Nat) (al : List Char),
    ws.length ≤ al.length → (∀ w ∈ ws, 5 ≤ w) →
    (alignCells ws al).length = ws.sum + ws.length := by
  intro ws
  induction ws with
  | nil =>
    intro al _ _
    cases al <;> simp [alignCells]
  | cons w wr ih =>
    intro al h1 h5
    cases al with
    | nil => simp at h1
    | cons a ar =>
      have hw : 5 ≤ w := h5 w (List.mem_cons_self _ _)
      have hr := ih ar (by simpa using h1) (fun x hx => h5 x (List.mem_cons_of_mem _ hx))
      have h3 : (String.mk ['<', a, '>']).length = 3 := rfl
      simp only [alignCells, String.length_append, getRowText_length, hr, h3,
        List.sum_cons, List.length_cons]
      have : max w (3 + 2) = w := by omega
      rw [this]
      omega

theorem alignLine_length (mw : List Nat) (al : List Char)
    (h1 : mw.length ≤ al.length) (h5 : ∀ w ∈ mw, 5 ≤ w) :
    (alignLine mw al).length = mw.sum + mw.length + 2 := by
  have h4 : ("|\n" : String).length = 2 := rfl
  simp only [alignLine, String.length_append, alignCells_length mw al h1 h5, h4]

theorem getD_zipWith_max : ∀ (l1 l2 : List Nat), l1.length = l2.length →
    ∀ j, (List.zipWith max l1 l2).getD j 0 = max (l1.getD j 0) (l2.getD j 0) := by
  intro l1
  induction l1 with
  | nil =>
    intro l2 h j
    cases l2 with
    | nil => simp [List.getD]
    | cons y r2 => simp at h
  | cons x r ih =>
    intro l2 h j
    cases l2 with
    | nil => simp at h
    | cons y r2 =>
      cases j with
      | zero => simp
      | succ jj =>
        simpa using ih r2 (by simpa using h) jj

theorem foldMaxw_go (n : Nat) : ∀ (rows : List (List Nat)) (acc : List Nat),
    (∀ ws ∈ rows, ws.length = n) → acc.length = n →
    (rows.foldl (fun acc ws => if acc = [] then ws else List.zipWith max ws acc) acc).length = n ∧
    (∀ j, (rows.foldl (fun acc ws => if acc = [] then ws else List.zipWith max ws acc) acc).getD j 0 =
      rows.foldl (fun a ws => max a (ws.getD j 0)) (acc.getD j 0)) := by
  intro rows
  induction rows with
  | nil =>
    intro acc _ hacc
    exact ⟨hacc, fun j => rfl⟩
  | cons ws rest ih =>
    intro acc hrows hacc
    have hws : ws.length = n := hrows ws (List.mem_cons_self ws rest)
    have hrest : ∀ w ∈ rest, w.length = n := fun w hw => hrows w (List.mem_cons_of_mem _ hw)
    by_cases hac : acc = []
    · have hn : n = 0 := by rw [← hacc, hac]; rfl
      have hwsnil : ws = [] := by
        cases ws with
        | nil => rfl
        | cons _ _ => simp [hn] at hws
      subst hwsnil
      subst hac
      have hres := ih [] hrest (by rw [hn]; rfl)
      constructor
      · rw [List.foldl_cons, if_pos rfl]
        exact hres.1
      · intro j
        rw [List.foldl_cons, if_pos rfl, List.foldl_cons, hres.2 j]
        rfl
    · have hlen : (List.zipWith max ws acc).length = n := by
        rw [List.length_zipWith]
        omega
      have hres := ih (List.zipWith max ws acc) hrest hlen
      constructor
      · rw [List.foldl_cons, if_neg hac]
        exact hres.1
      · intro j
        rw [List.foldl_cons, if_neg hac, List.foldl_cons, hres.2 j,
          getD_zipWith_max ws acc (by omega) j]
        congr 1
        exact Nat.max_comm _ _

theorem foldMaxw_uniform (n : Nat) (rows : List (List Nat))
    (hrows : ∀ ws ∈ rows, ws.length = n) (hne : rows ≠ []) :
    (foldMaxw rows).length = n ∧ ∀ j, (foldMaxw rows).getD j 0 = colMax rows j := by
  cases rows with
  | nil => exact absurd rfl hne
  | cons r0 rest =>
    have h0 : r0.length = n := hrows r0 (List.mem_cons_self _ _)
    have hres := foldMaxw_go n rest r0 (fun w hw => hrows w (List.mem_cons_of_mem _ hw)) h0
    have hfold : foldMaxw (r0 :: rest) =
        rest.foldl (fun acc ws => if acc = [] then ws else List.zipWith max ws acc) r0 := by
      unfold foldMaxw
      rw [List.foldl_cons, if_pos rfl]
    constructor
    · rw [hfold]
      exact hres.1
    · intro j
      rw [hfold, hres.2 j]
      unfold colMax
      rw [List.foldl_cons]
      congr 1
      exact (Nat.zero_max _).symm

theorem foldl_max_init_mono (j : Nat) : ∀ (rows : List (List Nat)) (a b : Nat), a ≤ b →
    rows.foldl (fun a ws => max a (ws.getD j 0)) a ≤
      rows.foldl (fun a ws => max a (ws.getD j 0)) b := by
  intro rows
  induction rows with
  | nil => intro a b h; exact h
  | cons ws rest ih =>
    intro a b h
    rw [List.foldl_cons, List.foldl_cons]
    exact ih _ _ (by omega)

theorem le_foldl_max (j : Nat) : ∀ (rows : List (List Nat)) (a : Nat),
    a ≤ rows.foldl (fun a ws => max a (ws.getD j 0)) a := by
  intro rows
  induction rows with
  | nil => intro a; exact Nat.le_refl a
  | cons ws rest ih =>
    intro a
    rw [List.foldl_cons]
    calc a ≤ max a (ws.getD j 0) := Nat.le_max_left _ _
    _ ≤ _ := ih _

theorem getD_le_colMax (j : Nat) : ∀ (rows : List (List Nat)) (r : List Nat),
    r ∈ rows → r.getD j 0 ≤ colMax rows j := by
  intro rows
  induction rows with
  | nil => intro r h; simp at h
  | cons ws rest ih =>
    intro r h
    unfold colMax
    rw [List.foldl_cons]
    rcases List.mem_cons.mp h with he | hr
    · subst he
      calc r.getD j 0 ≤ max 0 (r.getD j 0) := Nat.le_max_right _ _
      _ ≤ _ := le_foldl_max j rest _
    · calc r.getD j 0 ≤ colMax rest j := ih r hr
      _ ≤ _ := foldl_max_init_mono j rest 0 _ (Nat.zero_le _)

theorem getD_irrel {α : Type} : ∀ (l : List α) (j : Nat), j < l.length →
    ∀ d1 d2 : α, l.getD j d1 = l.getD j d2 := by
  intro l
  induction l with
  | nil => intro j hj; simp at hj
  | cons x r ih =>
    intro j hj d1 d2
    cases j with
    | zero => rfl
    | succ jj => exact ih jj (by simpa using hj) d1 d2

theorem foldAligns_go (n : Nat) : ∀ (rows : List (List (Option String))) (st : List (Option String)),
    (∀ a ∈ rows, a.length = n) → st.length = n →
    ∃ l, rows.foldl
        (fun st a =>
          match st with
          | none => some a
          | some l => if l = [] then some a else some (List.zipWith pickAlign l a))
        (some st) = some l ∧ l.length = n := by
  intro rows
  induction rows with
  | nil =>
    intro st _ h
    exact ⟨st, rfl, h⟩
  | cons a rest ih =>
    intro st hrows hst
    have ha : a.length = n := hrows a (List.mem_cons_self _ _)
    have hrest : ∀ x ∈ rest, x.length = n := fun x hx => hrows x (List.mem_cons_of_mem _ hx)
    simp only [List.foldl_cons]
    by_cases he : st = []
    · rw [if_pos he]
      exact ih a hrest ha
    · rw [if_neg he]
      exact ih (List.zipWith pickAlign st a) hrest (by rw [List.length_zipWith]; omega)

theorem tableAligns_some (t : Elt) (n : Nat)
    (hne : allRowsOf t ≠ []) (huni : ∀ r ∈ allRowsOf t, r.children.length = n) :
    ∃ al, tableAligns t = some al ∧ al.length = n := by
  unfold tableAligns foldAligns
  cases hrw : allRowsOf t with
  | nil => exact absurd hrw hne
  | cons r0 rest =>
    simp only [List.map_cons, List.foldl_cons]
    have h0 : (r0.children.map alignAttr).length = n := by
      rw [List.length_map]
      exact huni r0 (by rw [hrw]; exact List.mem_cons_self _ _)
    have hrest : ∀ x ∈ rest.map (fun r => r.children.map alignAttr), x.length = n := by
      intro x hx
      obtain ⟨r, hr, hxe⟩ := List.mem_map.mp hx
      rw [← hxe, List.length_map]
      exact huni r (by rw [hrw]; exact List.mem_cons_of_mem _ hr)
    obtain ⟨l, hl, hln⟩ := foldAligns_go n (rest.map (fun r => r.children.map alignAttr))
      (r0.children.map alignAttr) hrest h0
    refine ⟨l.map alignCharOf, ?_, ?_⟩
    · rw [hl]
      rfl
    · rw [List.length_map]
      exact hln

/-- The computed column widths under equal-length rows: one width per column,
equal to 2 plus the per-column maximum of the trimmed cell widths. -/
theorem tableMaxw_uniform (t : Elt) (n : Nat)
    (hne : allRowsOf t ≠ [])
    (huni : ∀ r ∈ allRowsOf t, r.children.length = n) :
    (tableMaxw t).length = n ∧
    ∀ j, j < n →
      (tableMaxw t).getD j 0 = 2 + colMax ((allRowsOf t).map widthsOfRow) j := by
  have hrows : ∀ ws ∈ (allRowsOf t).map widthsOfRow, ws.length = n := by
    intro ws hws
    obtain ⟨r, hr, he⟩ := List.mem_map.mp hws
    rw [← he]
    unfold widthsOfRow
    rw [List.length_map]
    exact huni r hr
  have hmne : (allRowsOf t).map widthsOfRow ≠ [] := by
    intro h
    exact hne (List.map_eq_nil_iff.mp h)
  have hres := foldMaxw_uniform n ((allRowsOf t).map widthsOfRow) hrows hmne
  constructor
  · unfold tableMaxw
    rw [List.length_map]
    exact hres.1
  · intro j hj
    unfold tableMaxw
    have hlt : j < (foldMaxw ((allRowsOf t).map widthsOfRow)).length := by
      rw [hres.1]
      exact hj
    have h1 : ((foldMaxw ((allRowsOf t).map widthsOfRow)).map (fun x => 2 + x)).getD j 0 =
        ((foldMaxw ((allRowsOf t).map widthsOfRow)).map (fun x => 2 + x)).getD j (2 + 0) := by
      apply getD_irrel
      rw [List.length_map]
      exact hlt
    rw [h1, getD_map_general (fun x => 2 + x) _ j 0, hres.2 j]

/-- One row of the C4 counterexample table: cells `a`, `bb`. -/
def exRow4a : Elt := .mk "tr" [] none none
  [.mk "td" [] (some "a") none [], .mk "td" [] (some "bb") none []]

/-- The other row of the C4 counterexample table: single cell `c`. -/
def exRow4b : Elt := .mk "tr" [] none none [.mk "td" [] (some "c") none []]

/-- A table whose head row has two cells and whose body row has one. -/
def exTable4 : Elt := .mk "table" [] none none
  [.mk "thead" [] none none [exRow4a], .mk "tbody" [] none none [exRow4b]]

/-- C4 counterexample: in a ragged table whose first row has two cells and
whose second row has one, the truncating `zip` leaves a single computed
column width (`[3]`), so column position 1 — present in the first row —
receives no computed width, refuting the claim that every column position
present in some row still receives one (the claim would force widths
`[3, 4]`). -/
theorem c4_counterexample :
    tableMaxw exTable4 = [3] ∧
      (allRowsOf exTable4).map (fun r => r.children.length) = [2, 1] ∧
      tableMaxw exTable4 ≠ [3, 4] := by
  refine ⟨rfl, rfl, ?_⟩
  intro h
  exact absurd (congrArg List.length h) (by decide)

/-- C4 (amended): when every row of the table has the same number `n` of
cells, exactly `n` column widths are computed and the width of column `j`
is 2 plus the maximum over all rows (head, body and foot) of that column's
trimmed cell-text length.  For ragged rows the positional `zip` instead
TRUNCATES: a row with fewer cells cuts the accumulated widths down to its
own length, so a column position present in some row may receive no width
(see the counterexample). -/
theorem c4_amended_column_widths (t : Elt) (n : Nat)
    (hne : allRowsOf t ≠ [])
    (huni : ∀ r ∈ allRowsOf t, r.children.length = n) :
    (tableMaxw t).length = n ∧
    ∀ j, j < n →
      (tableMaxw t).getD j 0 = 2 + colMax ((allRowsOf t).map widthsOfRow) j :=
  tableMaxw_uniform t n hne huni

/-- First row of the §8 2×2 scenario: cells `a`, `bb`. -/
def exRowWa : Elt := .mk "tr" [] none none
  [.mk "td" [] (some "a") none [], .mk "td" [] (some "bb") none []]

/-- Second row of the §8 2×2 scenario: cells `ccc`, `d`. -/
def exRowWb : Elt := .mk "tr" [] none none
  [.mk "td" [] (some "ccc") none [], .mk "td" [] (some "d") none []]

/-- The 2×2 table of the spec's §8 concrete scenario. -/
def exTableW : Elt := .mk "table" [] none none
  [.mk "thead" [] none none [exRowWa], .mk "tbody" [] none none [exRowWb]]

theorem c4_amended_column_widths_witness :
    allRowsOf exTableW ≠ [] ∧
      (∀ r ∈ allRowsOf exTableW, r.children.length = 2) ∧
      tableMaxw exTableW = [5, 4] ∧
      ((tableMaxw exTableW).length = 2 ∧
        ∀ j, j < 2 →
          (tableMaxw exTableW).getD j 0 =
            2 + colMax ((allRowsOf exTableW).map widthsOfRow) j) := by
  have h1 : allRowsOf exTableW ≠ [] := fun h => List.noConfusion h
  have h2 : ∀ r ∈ allRowsOf exTableW, r.children.length = 2 := by
    intro r hr
    rw [show allRowsOf exTableW = [exRowWa, exRowWb] from rfl] at hr
    rcases List.mem_cons.mp hr with h | h
    · rw [h]; rfl
    rcases List.mem_cons.mp h with h | h
    · rw [h]; rfl
    · simp at h
  exact ⟨h1, h2, rfl, c4_amended_column_widths exTableW 2 h1 h2⟩

/-- A 1×1 table with the cell text `a` (column width 3 < 5). -/
def exTable3 : Elt := .mk "table" [] none none
  [.mk "tbody" [] none none [.mk "tr" [] none none [.mk "td" [] (some "a") none []]]]

/-- C3 counterexample: the rendered 1×1 table with cell `a` has rule and row
lines of length 6 but an alignment-annotation row of length 8 (its cell
` <l> ` needs 5 characters, more than the column width 3), so not every
emitted line has identical length. -/
theorem c3_counterexample :
    cvtTable exTable3 = some ["|---|\n", "| a |\n", "| <l> |\n", "|---|\n"] ∧
      ¬(∀ l1 ∈ ["|---|\n", "| a |\n", "| <l> |\n", "|---|\n"],
        ∀ l2 ∈ ["|---|\n", "| a |\n", "| <l> |\n", "|---|\n"],
          (l1 : String).length = l2.length) := by
  refine ⟨rfl, ?_⟩
  intro h
  have := h "| a |\n" (by simp) "| <l> |\n" (by simp)
  exact absurd this (by decide)

/-- C3 (amended): for a table whose rows all have the same positive number
of cells, every head/body/foot row line and the rule line share the length
`(sum of widths) + n + 2`; the alignment-annotation row also has that
length provided every column width is at least 5 (each alignment cell
` <x> ` occupies `max width 5` characters), and can exceed it otherwise
(see the counterexample). -/
theorem c3_amended_width_consistency (t : Elt) (n : Nat) (al : List Char)
    (hne : allRowsOf t ≠ []) (hn : 0 < n)
    (huni : ∀ r ∈ allRowsOf t, r.children.length = n)
    (hal : tableAligns t = some al) :
    ((mkRule (tableMaxw t)).length = (tableMaxw t).sum + n + 2) ∧
    (∀ r ∈ allRowsOf t,
      (renderRow (tableMaxw t) al r).length = (tableMaxw t).sum + n + 2) ∧
    ((∀ w ∈ tableMaxw t, 5 ≤ w) →
      (alignLine (tableMaxw t) al).length = (tableMaxw t).sum + n + 2) := by
  obtain ⟨hwlen, hwval⟩ := tableMaxw_uniform t n hne huni
  have hallen : al.length = n := by
    obtain ⟨al2, hal2, hln2⟩ := tableAligns_some t n hne huni
    rw [hal] at hal2
    injection hal2 with h
    rw [h]
    exact hln2
  have hrule : (mkRule (tableMaxw t)).length = (tableMaxw t).sum + n + 2 := by
    cases hmw : tableMaxw t with
    | nil =>
      rw [hmw] at hwlen
      simp at hwlen
      omega
    | cons w ws =>
      rw [mkRule_length]
      rw [hmw] at hwlen
      rw [hwlen]
  refine ⟨hrule, ?_, ?_⟩
  · intro r hr
    have hb : ∀ j, j < (tableMaxw t).length →
        (cellTextRender (r.children.getD j nullElt)).length + 2 ≤
          (tableMaxw t).getD j 0 := by
      intro j hj
      rw [hwlen] at hj
      rw [cellTextRender_length, hwval j hj]
      have hwr : (widthsOfRow r).length = n := by
        unfold widthsOfRow
        rw [List.length_map]
        exact huni r hr
      have h1 : cellTextLenPy (r.children.getD j nullElt) = (widthsOfRow r).getD j 0 := by
        have h2 : (widthsOfRow r).getD j 0 =
            (widthsOfRow r).getD j (cellTextLenPy nullElt) := by
          apply getD_irrel
          rw [hwr]
          exact hj
        rw [h2]
        unfold widthsOfRow
        rw [getD_map_general cellTextLenPy r.children j nullElt]
      rw [h1]
      have h3 : (widthsOfRow r).getD j 0 ≤ colMax ((allRowsOf t).map widthsOfRow) j :=
        getD_le_colMax j _ _ (List.mem_map_of_mem widthsOfRow hr)
      omega
    rw [renderRow_length (tableMaxw t) al r (by omega) (by rw [hwlen, huni r hr]) hb,
      hwlen]
  · intro h5
    rw [alignLine_length (tableMaxw t) al (by omega) h5, hwlen]

/-- A 1×2 table whose cells are at least three characters wide. -/
def exTable3W : Elt := .mk "table" [] none none
  [.mk "tbody" [] none none
    [.mk "tr" [] none none
      [.mk "td" [] (some "abc") none [], .mk "td" [] (some "defg") none []]]]

theorem c3_amended_width_consistency_witness :
    allRowsOf exTable3W ≠ [] ∧ 0 < 2 ∧
      (∀ r ∈ allRowsOf exTable3W, r.children.length = 2) ∧
      tableAligns exTable3W = some ['l', 'l'] ∧
      (((mkRule (tableMaxw exTable3W)).length = (tableMaxw exTable3W).sum + 2 + 2) ∧
       (∀ r ∈ allRowsOf exTable3W,
         (renderRow (tableMaxw exTable3W) ['l', 'l'] r).length =
           (tableMaxw exTable3W).sum + 2 + 2) ∧
       ((∀ w ∈ tableMaxw exTable3W, 5 ≤ w) →
         (alignLine (tableMaxw exTable3W) ['l', 'l']).length =
           (tableMaxw exTable3W).sum + 2 + 2)) := by
  have h1 : allRowsOf exTable3W ≠ [] := fun h => List.noConfusion h
  have h2 : ∀ r ∈ allRowsOf exTable3W, r.children.length = 2 := by
    intro r hr
    rw [show allRowsOf exTable3W =
      [.mk "tr" [] none none
        [.mk "td" [] (some "abc") none [], .mk "td" [] (some "defg") none []]] from rfl] at hr
    rcases List.mem_cons.mp hr with h | h
    · rw [h]; rfl
    · simp at h
  have h4 : tableAligns exTable3W = some ['l', 'l'] := rfl
  exact ⟨h1, by omega, h2, h4,
    c3_amended_width_consistency exTable3W 2 ['l', 'l'] h1 (by omega) h2 h4⟩

/-! ### Lemmas for the group-emission loop (C5) -/

/-- The group emission after the alignment row has been produced: rows and a
rule per non-empty group, nothing else. -/
def renderRest (mw : List Nat) (al : List Char) (rule : String) :
    List (List Elt) → List String
  | [] => []
  | g :: gs =>
    (if g.isEmpty then [] else g.map (renderRow mw al) ++ [rule]) ++
      renderRest mw al rule gs

theorem renderGroups_true_eq (mw : List Nat) (al : List Char) (rule : String) :
    ∀ gs, renderGroups mw al rule gs true = renderRest mw al rule gs := by
  intro gs
  induction gs with
  | nil => rfl
  | cons g gs ih =>
    by_cases hg : g.isEmpty
    · rw [renderGroups, if_pos hg, renderRest, if_pos hg, ih]
      rfl
    · rw [renderGroups, if_neg hg, renderRest, if_neg hg, ih]
      simp

theorem renderGroups_false_split (mw : List Nat) (al : List Char) (rule : String) :
    ∀ gs : List (List Elt), (∃ g ∈ gs, g ≠ []) →
    ∃ es g' gs', gs = es ++ g' :: gs' ∧ (∀ x ∈ es, x = []) ∧ g' ≠ [] ∧
      renderGroups mw al rule gs false =
        g'.map (renderRow mw al) ++
          alignLine mw al :: rule :: renderRest mw al rule gs' := by
  intro gs
  induction gs with
  | nil =>
    intro hex
    obtain ⟨g, hg, _⟩ := hex
    simp at hg
  | cons g gs ih =>
    intro hex
    by_cases hg : g = []
    · subst hg
      have hex2 : ∃ g0 ∈ gs, g0 ≠ [] := by
        obtain ⟨g0, hg0, hne0⟩ := hex
        rcases List.mem_cons.mp hg0 with h | h
        · exact absurd h.symm (Ne.symm hne0)
        · exact ⟨g0, h, hne0⟩
      obtain ⟨es, g', gs', heq, hes, hne', hrend⟩ := ih hex2
      refine ⟨[] :: es, g', gs', by rw [heq]; rfl, ?_, hne', ?_⟩
      · intro x hx
        rcases List.mem_cons.mp hx with h | h
        · exact h
        · exact hes x h
      · have hg0 : ([] : List Elt).isEmpty = true := rfl
        rw [renderGroups, if_pos hg0]
        exact hrend
    · refine ⟨[], g, gs, rfl, by intro x hx; simp at hx, hg, ?_⟩
      have hgb : g.isEmpty = false := by
        cases g with
        | nil => exact absurd rfl hg
        | cons _ _ => rfl
      rw [renderGroups, hgb]
      rw [renderGroups_true_eq]
      simp

/-- C5: for every table with at least one non-empty row-group, the output is
caption lines, the leading rule, then — after skipping the empty groups —
the rows of the first non-empty group, exactly one alignment-annotation row,
that group's closing rule, and finally `renderRest`, which by construction
emits only rows and one rule per remaining non-empty group (never another
alignment row). -/
theorem c5_alignment_row_once (t : Elt) (out : List String) (al : List Char)
    (hal : tableAligns t = some al)
    (hout : cvtTable t = some out)
    (hex : ∃ g ∈ [groupRows t "thead", groupRows t "tbody", groupRows t "tfoot"], g ≠ []) :
    ∃ caps es g gs,
      [groupRows t "thead", groupRows t "tbody", groupRows t "tfoot"] = es ++ g :: gs ∧
      (∀ x ∈ es, x = []) ∧ g ≠ [] ∧
      out = caps ++ mkRule (tableMaxw t) ::
        (g.map (renderRow (tableMaxw t) al) ++
          alignLine (tableMaxw t) al ::
            mkRule (tableMaxw t) ::
              renderRest (tableMaxw t) al (mkRule (tableMaxw t)) gs) := by
  unfold cvtTable at hout
  cases hcap : tableCaption t with
  | none =>
    rw [hcap] at hout
    simp at hout
  | some caps =>
    rw [hcap, hal] at hout
    simp only [Option.some_inj] at hout
    obtain ⟨es, g', gs', heq, hes, hne', hrend⟩ :=
      renderGroups_false_split (tableMaxw t) al (mkRule (tableMaxw t))
        [groupRows t "thead", groupRows t "tbody", groupRows t "tfoot"] hex
    refine ⟨caps ++ addEltAttrLines t "anchor" "name", es, g', gs', heq, hes, hne', ?_⟩
    rw [← hout, hrend]

theorem c5_alignment_row_once_witness :
    tableAligns exTable3 = some ['l'] ∧
      cvtTable exTable3 = some ["|---|\n", "| a |\n", "| <l> |\n", "|---|\n"] ∧
      (∃ g ∈ [groupRows exTable3 "thead", groupRows exTable3 "tbody",
        groupRows exTable3 "tfoot"], g ≠ []) ∧
      (∃ caps es g gs,
        [groupRows exTable3 "thead", groupRows exTable3 "tbody",
          groupRows exTable3 "tfoot"] = es ++ g :: gs ∧
        (∀ x ∈ es, x = []) ∧ g ≠ [] ∧
        ["|---|\n", "| a |\n", "| <l> |\n", "|---|\n"] =
          caps ++ mkRule (tableMaxw exTable3) ::
            (g.map (renderRow (tableMaxw exTable3) ['l']) ++
              alignLine (tableMaxw exTable3) ['l'] ::
                mkRule (tableMaxw exTable3) ::
                  renderRest (tableMaxw exTable3) ['l']
                    (mkRule (tableMaxw exTable3)) gs)) := by
  have h1 : tableAligns exTable3 = some ['l'] := rfl
  have h2 : cvtTable exTable3 = some ["|---|\n", "| a |\n", "| <l> |\n", "|---|\n"] := rfl
  have h3 : ∃ g ∈ [groupRows exTable3 "thead", groupRows exTable3 "tbody",
      groupRows exTable3 "tfoot"], g ≠ [] := by
    refine ⟨groupRows exTable3 "tbody", by simp, ?_⟩
    intro h
    exact List.noConfusion h
  exact ⟨h1, h2, h3, c5_alignment_row_once exTable3 _ ['l'] h1 h2 h3⟩

/-- A `reference` entry whose `front` has an `author` child but no
`organization` child. -/
def exRef6 : Elt := .mk "reference" [("anchor", "R1")] none none
  [.mk "front" [] none none [.mk "author" [("fullname", "A")] none none []]]

/-- C6 counterexample: a bibliographic `reference` carrying the required
anchor whose `front` contains an `author` without an `organization` child
does NOT merely omit the organization line — the conversion aborts
(`author.find("organization")` is `None`, so `org.text` raises
`AttributeError`), refuting "missing front-matter sub-elements … never
cause an error: conversion of the entry always completes". -/
theorem c6_counterexample : cvtReference exRef6 = none := rfl

/-- C6 (amended): for a `reference` entry with the required anchor,
conversion completes whenever the front-matter part converts — in
particular when `front`, its `title`, or its `author` is simply absent, the
corresponding property line is omitted — and it emits the heading, the
property-block opener, the optional target property, exactly the
front-matter lines that are present, and the closer.  An `author` child
without an `organization` child (or a `title`/`organization` child whose
own text is absent) is however a fatal error, not an omitted line. -/
theorem c6_amended_reference_entry (e : Elt) (anchor : String) (fl : List String)
    (htag : e.tag = "reference")
    (hanc : attrGet e.attrib "anchor" = some anchor)
    (hfl : refFrontLines e = some fl) :
    cvtReference e = some (["** " ++ anchor ++ "\n", ":PROPERTIES:\n"] ++
      (match attrGet e.attrib "target" with
       | some tgt => [":REF_TARGET: " ++ pstrip tgt ++ "\n"]
       | none => []) ++
      fl ++ [":END:\n"]) := by
  have hincl : strHasSub "include" e.tag = false := by rw [htag]; rfl
  unfold cvtReference
  rw [hincl]
  simp only [Bool.false_and, Bool.false_eq_true, if_false]
  unfold cvtRefCore
  rw [if_pos htag, hanc, hfl]
  cases htgt : attrGet e.attrib "target" with
  | none => simp
  | some tgt => simp

/-- A well-formed `reference` entry with target and titled front matter. -/
def exRef6W : Elt := .mk "reference" [("anchor", "R2"), ("target", "https://x")] none none
  [.mk "front" [] none none [.mk "title" [] (some "T") none []]]

theorem c6_amended_reference_entry_witness :
    exRef6W.tag = "reference" ∧
      attrGet exRef6W.attrib "anchor" = some "R2" ∧
      refFrontLines exRef6W = some [":REF_TITLE: T\n"] ∧
      cvtReference exRef6W = some ["** R2\n", ":PROPERTIES:\n",
        ":REF_TARGET: https://x\n", ":REF_TITLE: T\n", ":END:\n"] := by
  refine ⟨rfl, rfl, rfl, ?_⟩
  exact c6_amended_reference_entry exRef6W "R2" [":REF_TITLE: T\n"] rfl rfl rfl

end XmlOrgRfc
